import Mathlib

/-!
Verification of the RVH (Range-Vector Hash) packet classifier.

The development shallowly embeds the two Rust modules
`range_vector_hash_map.rs` and `classifier.rs`:

* `u32` values (fields, masks, priorities, hashes) become `Nat`; all
  bitwise operators on values below `2 ^ 32` stay below `2 ^ 32`, so no
  wrap-around modelling is needed except in `getMask`, where the source
  shifts left repeatedly.
* `BTreeSet<Priority>` becomes its ascending in-order listing, a
  `List Nat`; `iter().min()` is the least element of that list.
* `HashMap<u32, Vec<R>>` becomes an association list with unique keys;
  bucket lookup, in-place chain update and appending a fresh bucket are
  modelled by `bucketPush` / `bucketSet` / `List.lookup`.
* The `unwrap` calls in `RVHashMap::remove` can panic; `remove` therefore
  returns `Option (Bool × RVHashMap)`, with `none` for a panic.
-/

namespace RVH

/-- 32 rounds of low-bit extraction: the bit-count of a 32-bit value. -/
def popcountAux : Nat → Nat → Nat
  | 0, _ => 0
  | fuel + 1, n => n % 2 + popcountAux fuel (n / 2)

/-- Rust `u32::count_ones` on `Nat` (all arguments are `u32` values,
so 32 rounds see every bit). -/
def popcount (n : Nat) : Nat := popcountAux 32 n

/-- One step of `get_masks`: `low` iterations of `m <<= 1; m |= 1` on a
`u32`, i.e. `(1 << low) - 1` with 32-bit wrap-around. -/
def getMask : Nat → Nat
  | 0 => 0
  | n + 1 => (2 * getMask n + 1) % 2 ^ 32

/-- `get_masks` from `range_vector_hash_map.rs`. -/
def get_masks (ranges : List (Nat × Nat)) : List Nat :=
  ranges.map (fun r => getMask r.1)

/-- `is_match` from `range_vector_hash_map.rs`. -/
def is_match (field1 field2 mask : Nat) : Bool :=
  (field1 ^^^ field2) &&& mask == 0

/-- A rule: the data the `Rule` trait exposes.  Rule equality in the
source is priority equality; the embedding compares priorities
explicitly wherever the source uses `==` on rules. -/
structure R where
  fields : List Nat
  masks : List Nat
  priority : Nat
deriving DecidableEq

/-- Insert into an ascending list at the sorted position: the state
change of `BTreeSet::insert` when the element is new. -/
def insortNat (p : Nat) : List Nat → List Nat
  | [] => [p]
  | q :: rest => if p ≤ q then p :: q :: rest else q :: insortNat p rest

/-- `iter().min()` with `unwrap_or(&0)` on a `BTreeSet` modelled as a
list: the least element, or 0 when empty. -/
def setMin (l : List Nat) : Nat := l.min?.getD 0

/-- `RVHashMap<R>` from `range_vector_hash_map.rs`.  The
`BTreeSet<Priority>` is modelled as its ascending in-order listing. -/
structure RVHashMap where
  highest_priority : Nat
  priorities : List Nat
  masks : List Nat
  ranges : List (Nat × Nat)
  hash_map : List (Nat × List R)
deriving DecidableEq

/-- `RVHashMap::new`. -/
def RVHashMap.new (ranges : List (Nat × Nat)) : RVHashMap :=
  { highest_priority := 0
    priorities := []
    masks := get_masks ranges
    ranges := ranges
    hash_map := [] }

/-- `RVHashMap::can_insert`: zip the table's ranges with the popcounts of
the rule's masks and check `low ≤ p < high` everywhere. -/
def RVHashMap.can_insert (t : RVHashMap) (rule : R) : Bool :=
  (t.ranges.zip (rule.masks.map popcount)).all
    (fun x => decide (x.2 ≥ x.1.1) && decide (x.2 < x.1.2))

/-- Loop of `RVHashMap::calc_hash`: `hash ^= p | (f & m); p ^= 1`,
zipping masks with fields (stopping at the shorter list, as `zip`
does in Rust). -/
def calcHashAux : List Nat → List Nat → Nat → Nat → Nat
  | m :: ms, f :: fs, hash, p => calcHashAux ms fs (hash ^^^ (p ||| (f &&& m))) (p ^^^ 1)
  | _, _, hash, _ => hash

/-- `RVHashMap::calc_hash`. -/
def RVHashMap.calc_hash (t : RVHashMap) (fields : List Nat) : Nat :=
  calcHashAux t.masks fields 0 1

/-- `hash_map.get_mut(&h)` followed by `push(rule)`, or
`hash_map.insert(h, vec![rule])` when the bucket is absent. -/
def bucketPush : List (Nat × List R) → Nat → R → List (Nat × List R)
  | [], h, rule => [(h, [rule])]
  | (k, chain) :: rest, h, rule =>
    if k = h then (k, chain ++ [rule]) :: rest
    else (k, chain) :: bucketPush rest h rule

/-- Replace the chain stored under key `h` (used by `remove`). -/
def bucketSet : List (Nat × List R) → Nat → List R → List (Nat × List R)
  | [], _, _ => []
  | (k, chain) :: rest, h, nc =>
    if k = h then (k, nc) :: rest
    else (k, chain) :: bucketSet rest h nc

/-- `Vec::swap_remove`: overwrite index `i` with the last element and
drop the last element. -/
def swapRemove (l : List R) (i : Nat) : List R :=
  match l.getLast? with
  | none => l
  | some last => (l.set i last).dropLast

/-- `RVHashMap::insert`.  Returns the success flag and the new table. -/
def RVHashMap.insert (t : RVHashMap) (rule : R) : Bool × RVHashMap :=
  if rule.priority ∈ t.priorities then (false, t)
  else
    let t1 : RVHashMap := { t with priorities := insortNat rule.priority t.priorities }
    let t2 : RVHashMap :=
      if rule.priority > t1.highest_priority
      then { t1 with highest_priority := rule.priority } else t1
    (true, { t2 with hash_map := bucketPush t2.hash_map (t2.calc_hash rule.fields) rule })

/-- `RVHashMap::remove`.  `none` models a panic at one of the two
`unwrap`s; note that on the `highest_priority` recomputation path the
source takes the MINIMUM of the remaining priorities. -/
def RVHashMap.remove (t : RVHashMap) (rule : R) : Option (Bool × RVHashMap) :=
  if rule.priority ∉ t.priorities then some (false, t)
  else
    let ps := t.priorities.erase rule.priority
    let hp := if rule.priority = t.highest_priority then setMin ps else t.highest_priority
    let h := t.calc_hash rule.fields
    match t.hash_map.lookup h with
    | none => none
    | some chain =>
      match chain.findIdx? (fun r2 => r2.priority == rule.priority) with
      | none => none
      | some i =>
        some (true, { t with priorities := ps, highest_priority := hp,
                             hash_map := bucketSet t.hash_map h (swapRemove chain i) })

/-- The per-rule match test of `check_match`: zip packet fields with the
rule's fields and masks and require `is_match` everywhere. -/
def matchesB (pfields rfields rmasks : List Nat) : Bool :=
  ((pfields.zip rfields).zip rmasks).all (fun x => is_match x.1.1 x.1.2 x.2)

/-- Chain scan of `check_match`, tracking `best_prio` and `best_match`. -/
def bestOf (pfields : List Nat) : List R → Nat → Option R → Option R
  | [], _, best => best
  | r :: rest, bp, best =>
    if matchesB pfields r.fields r.masks && decide (r.priority > bp)
    then bestOf pfields rest r.priority (some r)
    else bestOf pfields rest bp best

/-- `RVHashMap::check_match`. -/
def RVHashMap.check_match (t : RVHashMap) (pfields : List Nat) : Option R :=
  match t.hash_map.lookup (t.calc_hash pfields) with
  | none => none
  | some chain => bestOf pfields chain 0 none

/-- `RVHClassifier<R>` from `classifier.rs`. -/
structure RVHClassifier where
  hash_maps : List RVHashMap
deriving DecidableEq

/-- `RVHClassifier::new`. -/
def RVHClassifier.new (rvs : List (List (Nat × Nat))) : RVHClassifier :=
  ⟨rvs.map RVHashMap.new⟩

/-- Insertion step of a stable descending sort by `highest_priority`:
`t` (originally leftmost) goes in front of the first element it ties
with or beats. -/
def insertHM (t : RVHashMap) : List RVHashMap → List RVHashMap
  | [] => [t]
  | u :: rest =>
    if u.highest_priority ≤ t.highest_priority then t :: u :: rest
    else u :: insertHM t rest

/-- `sort_hash_maps`: `Vec::sort_by` with comparator
`b.highest_priority().cmp(&a.highest_priority())`, i.e. a stable sort
descending by `highest_priority`.  A stable sort's output is uniquely
determined by the comparator, so this stable insertion sort computes
exactly the source's result. -/
def sortHashMaps : List RVHashMap → List RVHashMap
  | [] => []
  | t :: rest => insertHM t (sortHashMaps rest)

/-- Loop of `RVHClassifier::add_rule`: try the first table whose
`can_insert` holds, break (successfully or not) right there. -/
def addRuleAux (rule : R) : List RVHashMap → Bool × List RVHashMap
  | [] => (false, [])
  | t :: rest =>
    if t.can_insert rule then
      match t.insert rule with
      | (true, t') => (true, t' :: rest)
      | (false, t') => (false, t' :: rest)
    else
      match addRuleAux rule rest with
      | (ok, rest') => (ok, t :: rest')

/-- `RVHClassifier::add_rule` (re-sorts the bank on success). -/
def RVHClassifier.add_rule (c : RVHClassifier) (rule : R) : Bool × RVHClassifier :=
  match addRuleAux rule c.hash_maps with
  | (true, hms) => (true, ⟨sortHashMaps hms⟩)
  | (false, hms) => (false, ⟨hms⟩)

/-- Loop of `RVHClassifier::remove_rule`; `none` propagates a panic of
`RVHashMap::remove`. -/
def removeRuleAux (rule : R) : List RVHashMap → Option (Bool × List RVHashMap)
  | [] => some (false, [])
  | t :: rest =>
    match t.remove rule with
    | none => none
    | some (true, t') => some (true, t' :: rest)
    | some (false, t') =>
      match removeRuleAux rule rest with
      | none => none
      | some (ok, rest') => some (ok, t' :: rest')

/-- `RVHClassifier::remove_rule` (re-sorts the bank on success). -/
def RVHClassifier.remove_rule (c : RVHClassifier) (rule : R) :
    Option (Bool × RVHClassifier) :=
  match removeRuleAux rule c.hash_maps with
  | none => none
  | some (true, hms) => some (true, ⟨sortHashMaps hms⟩)
  | some (false, hms) => some (false, ⟨hms⟩)

/-- Loop of `RVHClassifier::classify`, with the early-termination break
when a table's `highest_priority` is below the best priority found. -/
def classifyAux (pfields : List Nat) : List RVHashMap → Nat → Option R → Option R
  | [], _, best => best
  | t :: rest, bp, best =>
    if t.highest_priority < bp then best
    else
      match t.check_match pfields with
      | some r =>
        if r.priority > bp then classifyAux pfields rest r.priority (some r)
        else classifyAux pfields rest bp best
      | none => classifyAux pfields rest bp best

/-- `RVHClassifier::classify`. -/
def RVHClassifier.classify (c : RVHClassifier) (pfields : List Nat) : Option R :=
  classifyAux pfields c.hash_maps 0 none

/-- One mutation of the classifier API. -/
inductive Op
  | addR (rule : R)
  | removeR (rule : R)

/-- Execute one operation; `none` models a panic. -/
def step (c : RVHClassifier) : Op → Option RVHClassifier
  | .addR rule => some (c.add_rule rule).2
  | .removeR rule => (c.remove_rule rule).map (·.2)

/-- Execute a list of operations from a starting state. -/
def run : RVHClassifier → List Op → Option RVHClassifier
  | c, [] => some c
  | c, op :: ops =>
    match step c op with
    | none => none
    | some c' => run c' ops

/-- The classifier states reachable from a freshly constructed
classifier by `add_rule` / `remove_rule` calls that return. -/
inductive Reachable : RVHClassifier → Prop
  | init (rvs : List (List (Nat × Nat))) : Reachable (RVHClassifier.new rvs)
  | addR (c : RVHClassifier) (rule : R) :
      Reachable c → Reachable (c.add_rule rule).2
  | removeR (c c' : RVHClassifier) (rule : R) (b : Bool) :
      Reachable c → c.remove_rule rule = some (b, c') → Reachable c'

/-- Reachability under the dimensionality contract: every range vector
at construction and every rule passed to `add_rule` has dimension `D`. -/
inductive ReachD (D : Nat) : RVHClassifier → Prop
  | init (rvs : List (List (Nat × Nat))) (h : ∀ rv ∈ rvs, rv.length = D) :
      ReachD D (RVHClassifier.new rvs)
  | addR (c : RVHClassifier) (rule : R) :
      ReachD D c → rule.masks.length = D → ReachD D (c.add_rule rule).2
  | removeR (c c' : RVHClassifier) (rule : R) (b : Bool) :
      ReachD D c → c.remove_rule rule = some (b, c') → ReachD D c'

/-- All rules stored in a bucket map. -/
def chainRules (m : List (Nat × List R)) : List R := (m.map (·.2)).flatten

/-- All rules held in a table's buckets. -/
def rulesOf (t : RVHashMap) : List R := chainRules t.hash_map

/-- All rules held anywhere in the classifier. -/
def storedRules (c : RVHClassifier) : List R := (c.hash_maps.map rulesOf).flatten

/-- All priorities recorded across the bank. -/
def storedPriorities (c : RVHClassifier) : List Nat :=
  (c.hash_maps.map (·.priorities)).flatten

/-- The stored priorities listed in ascending order: a canonical
representation of the priority multiset. -/
def priorityMultiset (c : RVHClassifier) : List Nat :=
  (storedPriorities c).foldr insortNat []

/-- Modelled from the spec: the maximum of a priority set, or 0 when
empty (spec section 3, RVHT invariant 3). -/
def setMax (l : List Nat) : Nat := l.max?.getD 0

/-- Spec section 8, property 2: every rule held by a table has each
mask's popcount inside the table's range for that dimension. -/
def tableRegionOk (t : RVHashMap) : Prop :=
  ∀ rule ∈ rulesOf t,
    rule.masks.length = t.ranges.length ∧
    ∀ i, i < t.ranges.length →
      (t.ranges.getD i (0, 0)).1 ≤ popcount (rule.masks.getD i 0) ∧
      popcount (rule.masks.getD i 0) < (t.ranges.getD i (0, 0)).2

lemma insert_mem_false (t : RVHashMap) (rule : R) (h : rule.priority ∈ t.priorities) :
    t.insert rule = (false, t) := by
  simp [RVHashMap.insert, h]

lemma insert_fst_false (t : RVHashMap) (rule : R) (h : (t.insert rule).1 = false) :
    t.insert rule = (false, t) := by
  by_cases hm : rule.priority ∈ t.priorities
  · exact insert_mem_false t rule hm
  · simp [RVHashMap.insert, hm] at h

lemma remove_some_false (t t' : RVHashMap) (rule : R)
    (h : t.remove rule = some (false, t')) : t' = t ∧ rule.priority ∉ t.priorities := by
  by_cases hm : rule.priority ∈ t.priorities
  · exfalso
    unfold RVHashMap.remove at h
    rw [if_neg (by simpa using hm)] at h
    rcases hl : t.hash_map.lookup (t.calc_hash rule.fields) with _ | chain <;>
      simp [hl] at h
    rcases hi : chain.findIdx? (fun r2 => r2.priority == rule.priority) with _ | i <;>
      simp [hi] at h
  · unfold RVHashMap.remove at h
    rw [if_pos hm] at h
    have hp := Option.some_inj.mp h
    exact ⟨(congrArg Prod.snd hp).symm, hm⟩

lemma addRuleAux_none (rule : R) :
    ∀ l : List RVHashMap, (∀ t ∈ l, t.can_insert rule = false) →
      addRuleAux rule l = (false, l)
  | [], _ => rfl
  | t :: rest, h => by
    have ht := h t (List.mem_cons_self t rest)
    have hr := addRuleAux_none rule rest (fun u hu => h u (List.mem_cons_of_mem t hu))
    simp [addRuleAux, ht, hr]

lemma addRuleAux_first_false (rule : R) :
    ∀ (l₁ : List RVHashMap) (t : RVHashMap) (l₂ : List RVHashMap),
      (∀ u ∈ l₁, u.can_insert rule = false) → t.can_insert rule = true →
      (t.insert rule).1 = false →
      addRuleAux rule (l₁ ++ t :: l₂) = (false, l₁ ++ t :: l₂)
  | [], t, l₂, _, hcan, hf => by
    have := insert_fst_false t rule hf
    simp [addRuleAux, hcan, this]
  | u :: l₁, t, l₂, hall, hcan, hf => by
    have hu := hall u (List.mem_cons_self u l₁)
    have hr := addRuleAux_first_false rule l₁ t l₂
      (fun v hv => hall v (List.mem_cons_of_mem u hv)) hcan hf
    simp [addRuleAux, hu, hr]

lemma add_rule_of_aux_false (c : RVHClassifier) (rule : R)
    (h : addRuleAux rule c.hash_maps = (false, c.hash_maps)) :
    c.add_rule rule = (false, c) := by
  simp [RVHClassifier.add_rule, h]

lemma getD_map_popcount (l : List Nat) (i : Nat) (hi : i < l.length) :
    (l.map popcount).getD i 0 = popcount (l.getD i 0) := by
  simp [List.getD_eq_getElem?_getD, List.getElem?_map, List.getElem?_eq_getElem hi]

lemma zip_all_getD (f : (Nat × Nat) × Nat → Bool) :
    ∀ (xs : List (Nat × Nat)) (ys : List Nat), xs.length = ys.length →
      ((xs.zip ys).all f = true ↔
        ∀ i, i < xs.length → f (xs.getD i (0, 0), ys.getD i 0) = true)
  | [], [], _ => by simp
  | [], y :: ys, h => by simp at h
  | x :: xs, [], h => by simp at h
  | x :: xs, y :: ys, h => by
    have ih := zip_all_getD f xs ys (by simpa using h)
    rw [List.zip_cons_cons, List.all_cons, Bool.and_eq_true, ih]
    constructor
    · rintro ⟨h0, hr⟩ i hi
      cases i with
      | zero => simpa using h0
      | succ j => simpa using hr j (by simpa using hi)
    · intro hall
      refine ⟨by simpa using hall 0 (by simp), fun j hj => ?_⟩
      simpa using hall (j + 1) (by simpa using hj)

lemma canInsert_iff (t : RVHashMap) (rule : R)
    (hlen : rule.masks.length = t.ranges.length) :
    t.can_insert rule = true ↔
      ∀ i, i < t.ranges.length →
        (t.ranges.getD i (0, 0)).1 ≤ popcount (rule.masks.getD i 0) ∧
        popcount (rule.masks.getD i 0) < (t.ranges.getD i (0, 0)).2 := by
  unfold RVHashMap.can_insert
  rw [zip_all_getD _ t.ranges (rule.masks.map popcount) (by simp [hlen])]
  constructor
  · intro h i hi
    have := h i hi
    rw [getD_map_popcount rule.masks i (by omega)] at this
    simpa using this
  · intro h i hi
    rw [getD_map_popcount rule.masks i (by omega)]
    simpa using h i hi

/-- C6: for every RVHT and every rule of matching dimensionality,
`can_insert` returns true iff every dimension's mask popcount lies in
the half-open interval `[low_i, high_i)` of that dimension's range. -/
theorem can_insert_iff_in_region (t : RVHashMap) (rule : R)
    (hlen : rule.masks.length = t.ranges.length) :
    t.can_insert rule = true ↔
      ∀ i, i < t.ranges.length →
        (t.ranges.getD i (0, 0)).1 ≤ popcount (rule.masks.getD i 0) ∧
        popcount (rule.masks.getD i 0) < (t.ranges.getD i (0, 0)).2 :=
  canInsert_iff t rule hlen

theorem can_insert_iff_in_region_witness :
    (RVHashMap.new [(3, 5)]).can_insert ⟨[5], [7], 1⟩ = true ∧
    (RVHashMap.new [(3, 5)]).can_insert ⟨[5], [31], 1⟩ = false :=
  ⟨(can_insert_iff_in_region (RVHashMap.new [(3, 5)]) ⟨[5], [7], 1⟩ (by decide)).mpr
      (by decide),
   by
    have h := can_insert_iff_in_region (RVHashMap.new [(3, 5)]) ⟨[5], [31], 1⟩ (by decide)
    by_contra hc
    exact absurd ((h.mp (by revert hc; decide)) 0 (by decide)).2 (by decide)⟩

/-- C7: `add_rule` attempts insertion only at the first RVHT whose
`can_insert` holds; if that insert fails, or if no RVHT's `can_insert`
holds, `add_rule` returns false with the bank unchanged. -/
theorem add_rule_first_table_only (c : RVHClassifier) (rule : R)
    (h : (∀ t ∈ c.hash_maps, t.can_insert rule = false) ∨
      ∃ l₁ t l₂, c.hash_maps = l₁ ++ t :: l₂ ∧
        (∀ u ∈ l₁, u.can_insert rule = false) ∧
        t.can_insert rule = true ∧ (t.insert rule).1 = false) :
    c.add_rule rule = (false, c) := by
  rcases h with h | ⟨l₁, t, l₂, he, hall, hcan, hf⟩
  · exact add_rule_of_aux_false c rule (addRuleAux_none rule c.hash_maps h)
  · apply add_rule_of_aux_false
    rw [he]
    exact addRuleAux_first_false rule l₁ t l₂ hall hcan hf

theorem add_rule_first_table_only_witness :
    (RVHClassifier.new [[(3, 6)]]).add_rule ⟨[0], [0], 1⟩ =
      (false, RVHClassifier.new [[(3, 6)]]) :=
  add_rule_first_table_only _ _ (Or.inl (by decide))

/-- C8: inserting a rule whose priority is already stored returns false
and leaves the RVHT unchanged, and `add_rule` routed to such an RVHT
returns false and leaves the whole bank unchanged. -/
theorem insert_duplicate_priority_unchanged (t : RVHashMap) (c : RVHClassifier)
    (rule : R) (h1 : rule.priority ∈ t.priorities)
    (h2 : ∃ l₁ l₂, c.hash_maps = l₁ ++ t :: l₂ ∧
      (∀ u ∈ l₁, u.can_insert rule = false) ∧ t.can_insert rule = true) :
    t.insert rule = (false, t) ∧ c.add_rule rule = (false, c) := by
  have hi := insert_mem_false t rule h1
  refine ⟨hi, ?_⟩
  rcases h2 with ⟨l₁, l₂, he, hall, hcan⟩
  apply add_rule_of_aux_false
  rw [he]
  exact addRuleAux_first_false rule l₁ t l₂ hall hcan (by rw [hi])

theorem insert_duplicate_priority_unchanged_witness :
    ((RVHashMap.new [(0, 3)]).insert ⟨[0], [1], 1⟩).2.insert ⟨[5], [3], 1⟩ =
      (false, ((RVHashMap.new [(0, 3)]).insert ⟨[0], [1], 1⟩).2) ∧
    (⟨[((RVHashMap.new [(0, 3)]).insert ⟨[0], [1], 1⟩).2]⟩ : RVHClassifier).add_rule
        ⟨[5], [3], 1⟩ =
      (false, ⟨[((RVHashMap.new [(0, 3)]).insert ⟨[0], [1], 1⟩).2]⟩) :=
  insert_duplicate_priority_unchanged _ _ _ (by decide)
    ⟨[], [], rfl, by decide, by decide⟩

/-- C10: a reachable state and an argument rule whose priority is stored
but whose fields hash to a different bucket make `remove_rule` reach an
`unwrap` on a missing bucket: the call panics (modelled as `none`)
instead of returning a boolean. -/
theorem remove_panics_on_mismatched_fields :
    (run (RVHClassifier.new [[(3, 6)]]) [.addR ⟨[5], [7], 1⟩]).map
      (fun c => (c.remove_rule ⟨[2], [7], 1⟩, decide (1 ∈ storedPriorities c))) =
      some (none, true) := by decide

/-- C2: counterexample to `top = max`.  After adding priorities 1, 2, 3
to one RVHT and removing the rule with priority 3, the source recomputes
`highest_priority` as the MINIMUM of the remaining priorities: the table
holds priorities 1 and 2 but its `top` is 1, not the maximum 2. -/
theorem top_not_max_after_remove :
    (run (RVHClassifier.new [[(0, 33)]])
        [.addR ⟨[0], [0], 1⟩, .addR ⟨[1], [0], 2⟩, .addR ⟨[2], [0], 3⟩,
         .removeR ⟨[2], [0], 3⟩]).map
      (fun c => c.hash_maps.map
        (fun t => (t.highest_priority, t.priorities, setMax t.priorities))) =
      some [(1, [1, 2], 2)] := by decide

/-- C1: counterexample to semantic match equivalence.  In the final
reachable state the rule with priority 6 is stored and masked-matches
the packet `[0]`, yet `classify` returns the rule with priority 3: the
early-termination scan trusts a `top` that the remove-side min/max slip
left below the table's true maximum priority. -/
theorem classify_misses_higher_priority_match :
    ((run (RVHClassifier.new [[(0, 3)], [(3, 6)]])
        [.addR ⟨[0], [1], 1⟩, .addR ⟨[0], [1], 6⟩, .addR ⟨[0], [0], 7⟩,
         .addR ⟨[0], [7], 3⟩, .removeR ⟨[0], [0], 7⟩]).map
      (fun c => ((c.classify [0]).map R.priority,
        decide ((⟨[0], [1], 6⟩ : R) ∈ storedRules c))) =
      some (some 3, true)) ∧
    matchesB [0] [0] [1] = true := by decide

/-- C3: counterexample to add/remove idempotence.  Adding the fresh
in-region rule of priority 9 and removing it again leaves the priority
multiset unchanged but changes the `classify` output on packet `[0]`
from priority 5 to priority 3, because the removal recomputes the
table's `top` as a minimum. -/
theorem add_remove_changes_classify :
    ((run (RVHClassifier.new [[(0, 3)], [(3, 6)]])
        [.addR ⟨[0], [1], 2⟩, .addR ⟨[0], [3], 5⟩, .addR ⟨[0], [7], 3⟩]).map
      (fun c => ((c.classify [0]).map R.priority, priorityMultiset c,
        decide (9 ∈ storedPriorities c), (c.add_rule ⟨[0], [1], 9⟩).1)) =
      some (some 5, [2, 3, 5], false, true)) ∧
    ((run (RVHClassifier.new [[(0, 3)], [(3, 6)]])
        [.addR ⟨[0], [1], 2⟩, .addR ⟨[0], [3], 5⟩, .addR ⟨[0], [7], 3⟩,
         .addR ⟨[0], [1], 9⟩, .removeR ⟨[0], [1], 9⟩]).map
      (fun c => ((c.classify [0]).map R.priority, priorityMultiset c)) =
      some (some 3, [2, 3, 5])) ∧
    (((run (RVHClassifier.new [[(0, 3)], [(3, 6)]])
        [.addR ⟨[0], [1], 2⟩, .addR ⟨[0], [3], 5⟩, .addR ⟨[0], [7], 3⟩]).bind
      (fun c => (c.add_rule ⟨[0], [1], 9⟩).2.remove_rule ⟨[0], [1], 9⟩)).map
      (fun x => x.1) = some true) := by decide

lemma popcountAux_zero : ∀ fuel, popcountAux fuel 0 = 0
  | 0 => rfl
  | fuel + 1 => by simp [popcountAux, popcountAux_zero fuel]

lemma popcountAux_two_pow_sub_one :
    ∀ fuel k, k ≤ fuel → popcountAux fuel (2 ^ k - 1) = k
  | fuel, 0, _ => by simpa using popcountAux_zero fuel
  | fuel + 1, k + 1, h => by
    have h2 : (2:Nat) ^ (k + 1) = 2 * 2 ^ k := by rw [pow_succ]; ring
    have hpos : 0 < (2:Nat) ^ k := Nat.pos_pow_of_pos k (by omega)
    have hmod : (2 ^ (k + 1) - 1) % 2 = 1 := by omega
    have hdiv : (2 ^ (k + 1) - 1) / 2 = 2 ^ k - 1 := by omega
    have ih := popcountAux_two_pow_sub_one fuel k (by omega)
    simp [popcountAux, hmod, hdiv, ih]
    omega

lemma popcount_two_pow_sub_one (k : Nat) (hk : k ≤ 32) :
    popcount (2 ^ k - 1) = k :=
  popcountAux_two_pow_sub_one 32 k hk

lemma getMask_eq : ∀ n, n ≤ 32 → getMask n = 2 ^ n - 1
  | 0, _ => rfl
  | n + 1, h => by
    have ih := getMask_eq n (by omega)
    have h2 : (2:Nat) ^ (n + 1) = 2 * 2 ^ n := by rw [pow_succ]; ring
    have hpos : 0 < (2:Nat) ^ n := Nat.pos_pow_of_pos n (by omega)
    have hlt : (2:Nat) ^ (n + 1) ≤ 2 ^ 32 := Nat.pow_le_pow_right (by omega) h
    have : 2 * (2 ^ n - 1) + 1 = 2 ^ (n + 1) - 1 := by omega
    rw [getMask, ih, this, Nat.mod_eq_of_lt (by omega)]

lemma and_mask_zero_mono {x k low : Nat} (hlk : low ≤ k)
    (h : x &&& (2 ^ k - 1) = 0) : x &&& (2 ^ low - 1) = 0 := by
  rw [Nat.and_pow_two_sub_one_eq_mod] at h ⊢
  have hd : (2:Nat) ^ k ∣ x := Nat.dvd_of_mod_eq_zero h
  exact Nat.mod_eq_zero_of_dvd (dvd_trans (pow_dvd_pow 2 hlk) hd)

lemma and_eq_of_xor_and_zero {a b m : Nat} (h : (a ^^^ b) &&& m = 0) :
    a &&& m = b &&& m := by
  apply Nat.eq_of_testBit_eq
  intro j
  have hj := congrArg (fun x => Nat.testBit x j) h
  simp only [Nat.testBit_and, Nat.testBit_xor, Nat.zero_testBit] at hj
  simp only [Nat.testBit_and]
  cases ha : a.testBit j <;> cases hb : b.testBit j <;> cases hm : m.testBit j <;>
    simp_all

lemma calcHashAux_nil_left (fs : List Nat) (hash p : Nat) :
    calcHashAux [] fs hash p = hash := by cases fs <;> rfl

lemma calcHashAux_nil_right (ms : List Nat) (hash p : Nat) :
    calcHashAux ms [] hash p = hash := by cases ms <;> rfl

lemma calcHashAux_congr :
    ∀ (ms f1s f2s : List Nat) (hash p : Nat), f1s.length = f2s.length →
      (∀ i, f1s.getD i 0 &&& ms.getD i 0 = f2s.getD i 0 &&& ms.getD i 0) →
      calcHashAux ms f1s hash p = calcHashAux ms f2s hash p
  | [], f1s, f2s, hash, p, _, _ => by
    rw [calcHashAux_nil_left, calcHashAux_nil_left]
  | m :: ms, [], f2s, hash, p, hl, _ => by
    have : f2s = [] := List.length_eq_zero.mp (by simpa using hl.symm)
    rw [this]
  | m :: ms, f1 :: f1s, [], hash, p, hl, _ => by simp at hl
  | m :: ms, f1 :: f1s, f2 :: f2s, hash, p, hl, h => by
    have h0 : f1 &&& m = f2 &&& m := by simpa using h 0
    show calcHashAux ms f1s (hash ^^^ (p ||| (f1 &&& m))) (p ^^^ 1) =
      calcHashAux ms f2s (hash ^^^ (p ||| (f2 &&& m))) (p ^^^ 1)
    rw [h0]
    exact calcHashAux_congr ms f1s f2s _ _ (by simpa using hl)
      (fun i => by simpa using h (i + 1))

lemma matchesB_getD :
    ∀ (pfs rfs rms : List Nat), matchesB pfs rfs rms = true →
      ∀ i, i < pfs.length → i < rfs.length → i < rms.length →
        is_match (pfs.getD i 0) (rfs.getD i 0) (rms.getD i 0) = true
  | [], _, _, _, i, hi, _, _ => by simp at hi
  | _ :: _, [], _, _, i, _, hi, _ => by simp at hi
  | _ :: _, _ :: _, [], _, _, _, _, hi => by simp at hi
  | p :: ps, r :: rs, m :: ms, h, i, hp, hr, hm => by
    rw [matchesB, List.zip_cons_cons, List.zip_cons_cons, List.all_cons,
      Bool.and_eq_true] at h
    cases i with
    | zero => simpa using h.1
    | succ j =>
      have := matchesB_getD ps rs ms (by simpa [matchesB] using h.2) j
        (by simpa using hp) (by simpa using hr) (by simpa using hm)
      simpa using this

lemma getD_get_masks (ranges : List (Nat × Nat)) (i : Nat) (hi : i < ranges.length) :
    (get_masks ranges).getD i 0 = getMask ((ranges.getD i (0, 0)).1) := by
  simp [get_masks, List.getD_eq_getElem?_getD, List.getElem?_map,
    List.getElem?_eq_getElem hi]

/-- C5: for a rule whose masks are contiguous low-order runs lying in
the table's region, and a packet that masked-matches the rule, the
table's fingerprint on the rule's fields equals the fingerprint on the
packet's fields. -/
theorem fingerprint_agreement (ranges : List (Nat × Nat)) (rule : R)
    (pfields : List Nat)
    (hm : rule.masks.length = ranges.length)
    (hf : rule.fields.length = ranges.length)
    (hp : pfields.length = ranges.length)
    (hcontig : ∀ i, i < ranges.length → ∃ k, k ≤ 32 ∧ rule.masks.getD i 0 = 2 ^ k - 1)
    (hregion : (RVHashMap.new ranges).can_insert rule = true)
    (hmatch : matchesB pfields rule.fields rule.masks = true) :
    (RVHashMap.new ranges).calc_hash rule.fields =
      (RVHashMap.new ranges).calc_hash pfields := by
  have hranges : (RVHashMap.new ranges).ranges = ranges := rfl
  have hmasks : (RVHashMap.new ranges).masks = get_masks ranges := rfl
  unfold RVHashMap.calc_hash
  rw [hmasks]
  apply calcHashAux_congr _ _ _ _ _ (hf.trans hp.symm)
  intro i
  by_cases hi : i < ranges.length
  · obtain ⟨k, hk32, hmk⟩ := hcontig i hi
    have hreg := (canInsert_iff (RVHashMap.new ranges) rule
      (by rw [hranges]; exact hm)).mp hregion i (by rw [hranges]; exact hi)
    rw [hranges] at hreg
    have hpc : popcount (rule.masks.getD i 0) = k := by
      rw [hmk]; exact popcount_two_pow_sub_one k hk32
    have hlo : (ranges.getD i (0, 0)).1 ≤ k := by
      have := hreg.1; omega
    have hcm : (get_masks ranges).getD i 0 = 2 ^ (ranges.getD i (0, 0)).1 - 1 := by
      rw [getD_get_masks ranges i hi, getMask_eq _ (by omega)]
    have him := matchesB_getD pfields rule.fields rule.masks hmatch i
      (by omega) (by omega) (by omega)
    have hxor : (pfields.getD i 0 ^^^ rule.fields.getD i 0) &&& (2 ^ k - 1) = 0 := by
      rw [is_match, hmk] at him
      simpa using him
    have hxor2 := and_mask_zero_mono hlo hxor
    have hfin := and_eq_of_xor_and_zero hxor2
    rw [hcm]
    exact hfin.symm
  · have hnil : (get_masks ranges).getD i 0 = 0 :=
      List.getD_eq_default _ _ (by simp [get_masks]; omega)
    rw [hnil]
    simp

theorem fingerprint_agreement_witness :
    (RVHashMap.new [(3, 5)]).calc_hash [5] = (RVHashMap.new [(3, 5)]).calc_hash [21] :=
  fingerprint_agreement [(3, 5)] ⟨[5], [15], 1⟩ [21] (by decide) (by decide) (by decide)
    (fun i hi => match i with
      | 0 => ⟨4, by decide, by decide⟩
      | j + 1 => absurd hi (by simp))
    (by decide) (by decide)

lemma insertHM_mem (t : RVHashMap) :
    ∀ (l : List RVHashMap) (x : RVHashMap), x ∈ insertHM t l ↔ x = t ∨ x ∈ l
  | [], x => by simp [insertHM]
  | u :: rest, x => by
    by_cases h : u.highest_priority ≤ t.highest_priority
    · simp [insertHM, h, List.mem_cons]
    · simp [insertHM, h, List.mem_cons, insertHM_mem t rest x]
      tauto

lemma insertHM_sorted (t : RVHashMap) :
    ∀ l : List RVHashMap,
      l.Pairwise (fun a b => b.highest_priority ≤ a.highest_priority) →
      (insertHM t l).Pairwise (fun a b => b.highest_priority ≤ a.highest_priority)
  | [], _ => by simp [insertHM]
  | u :: rest, hs => by
    rcases List.pairwise_cons.mp hs with ⟨hu, hrest⟩
    by_cases h : u.highest_priority ≤ t.highest_priority
    · rw [insertHM, if_pos h]
      refine List.pairwise_cons.mpr ⟨?_, hs⟩
      intro x hx
      rcases List.mem_cons.mp hx with rfl | hx
      · exact h
      · exact le_trans (hu x hx) h
    · rw [insertHM, if_neg h]
      refine List.pairwise_cons.mpr ⟨?_, insertHM_sorted t rest hrest⟩
      intro x hx
      rcases (insertHM_mem t rest x).mp hx with rfl | hx
      · omega
      · exact hu x hx

lemma sortHashMaps_sorted :
    ∀ l : List RVHashMap,
      (sortHashMaps l).Pairwise (fun a b => b.highest_priority ≤ a.highest_priority)
  | [] => by simp [sortHashMaps]
  | t :: rest => insertHM_sorted t (sortHashMaps rest) (sortHashMaps_sorted rest)

lemma sortHashMaps_mem :
    ∀ (l : List RVHashMap) (x : RVHashMap), x ∈ sortHashMaps l ↔ x ∈ l
  | [], x => Iff.rfl
  | t :: rest, x => by
    simp [sortHashMaps, insertHM_mem, sortHashMaps_mem rest x, List.mem_cons]

lemma addRuleAux_false_eq (rule : R) :
    ∀ l : List RVHashMap, (addRuleAux rule l).1 = false → (addRuleAux rule l).2 = l
  | [], _ => rfl
  | t :: rest, h => by
    by_cases hc : t.can_insert rule
    · rcases hi : t.insert rule with ⟨b, t'⟩
      cases b
      · have ht : t' = t := by
          have h2 := insert_fst_false t rule (by rw [hi])
          rw [hi] at h2
          exact congrArg Prod.snd h2
        simp [addRuleAux, hc, hi, ht]
      · simp [addRuleAux, hc, hi] at h
    · rcases haux : addRuleAux rule rest with ⟨ok, rest'⟩
      rw [addRuleAux, if_neg hc, haux] at h ⊢
      simp at h ⊢
      have := addRuleAux_false_eq rule rest
      rw [haux] at this
      exact this h

lemma removeRuleAux_false_eq (rule : R) :
    ∀ (l hms : List RVHashMap), removeRuleAux rule l = some (false, hms) → hms = l
  | [], hms, h => by
    simp [removeRuleAux] at h
    exact h
  | t :: rest, hms, h => by
    rcases hr : t.remove rule with _ | ⟨b, t'⟩
    · simp [removeRuleAux, hr] at h
    · cases b
      · obtain ⟨ht, _⟩ := remove_some_false t t' rule hr
        rcases haux : removeRuleAux rule rest with _ | ⟨ok, rest'⟩
        · simp [removeRuleAux, hr, haux] at h
        · cases ok
          · have hrest := removeRuleAux_false_eq rule rest rest' haux
            simp [removeRuleAux, hr, haux] at h
            rw [← h, ht, hrest]
          · simp [removeRuleAux, hr, haux] at h
      · simp [removeRuleAux, hr] at h

/-- C4: at every observable program point (a freshly constructed
classifier and the state after every `add_rule` / `remove_rule` call
that returns), the bank is sorted in non-increasing order of
`highest_priority`. -/
theorem bank_sorted_of_reachable (c : RVHClassifier) (h : Reachable c) :
    c.hash_maps.Pairwise (fun a b => b.highest_priority ≤ a.highest_priority) := by
  induction h with
  | init rvs =>
    show (rvs.map RVHashMap.new).Pairwise _
    rw [List.pairwise_map]
    induction rvs with
    | nil => simp
    | cons rv rvs ih =>
      exact List.pairwise_cons.mpr ⟨fun b _ => by simp [RVHashMap.new], ih⟩
  | addR c rule hr ih =>
    rcases haux : addRuleAux rule c.hash_maps with ⟨ok, hms⟩
    cases ok
    · have heq : hms = c.hash_maps := by
        have := addRuleAux_false_eq rule c.hash_maps
        rw [haux] at this
        exact this rfl
      simp [RVHClassifier.add_rule, haux, heq]
      exact ih
    · simp [RVHClassifier.add_rule, haux]
      exact sortHashMaps_sorted hms
  | removeR c c' rule b hr he ih =>
    unfold RVHClassifier.remove_rule at he
    rcases haux : removeRuleAux rule c.hash_maps with _ | ⟨ok, hms⟩
    · rw [haux] at he
      simp at he
    · rw [haux] at he
      cases ok
      · have heq : hms = c.hash_maps := removeRuleAux_false_eq rule c.hash_maps hms haux
        simp at he
        rw [← he.2, heq]
        exact ih
      · simp at he
        rw [← he.2]
        exact sortHashMaps_sorted hms

theorem bank_sorted_of_reachable_witness :
    (((RVHClassifier.new [[(0, 3)], [(3, 6)]]).add_rule ⟨[0], [7], 3⟩).2).hash_maps.Pairwise
      (fun a b => b.highest_priority ≤ a.highest_priority) :=
  bank_sorted_of_reachable _ (Reachable.addR _ _ (Reachable.init _))

lemma chainRules_cons (k : Nat) (c : List R) (rest : List (Nat × List R)) :
    chainRules ((k, c) :: rest) = c ++ chainRules rest := by
  simp [chainRules]

lemma mem_chainRules_bucketPush :
    ∀ (m : List (Nat × List R)) (h : Nat) (rule x : R),
      x ∈ chainRules (bucketPush m h rule) → x ∈ chainRules m ∨ x = rule
  | [], h, rule, x, hx => by
    simp [bucketPush, chainRules] at hx
    right
    exact hx
  | (k, c) :: rest, h, rule, x, hx => by
    by_cases hk : k = h
    · rw [bucketPush, if_pos hk, chainRules_cons] at hx
      rw [chainRules_cons]
      rcases List.mem_append.mp hx with hx | hx
      · rcases List.mem_append.mp hx with hx | hx
        · left; exact List.mem_append.mpr (Or.inl hx)
        · right; simpa using hx
      · left; exact List.mem_append.mpr (Or.inr hx)
    · rw [bucketPush, if_neg hk, chainRules_cons] at hx
      rw [chainRules_cons]
      rcases List.mem_append.mp hx with hx | hx
      · left; exact List.mem_append.mpr (Or.inl hx)
      · rcases mem_chainRules_bucketPush rest h rule x hx with hx | hx
        · left; exact List.mem_append.mpr (Or.inr hx)
        · right; exact hx

lemma mem_chainRules_bucketSet :
    ∀ (m : List (Nat × List R)) (h : Nat) (nc : List R) (x : R),
      x ∈ chainRules (bucketSet m h nc) → x ∈ chainRules m ∨ x ∈ nc
  | [], h, nc, x, hx => by
    simp [bucketSet, chainRules] at hx
  | (k, c) :: rest, h, nc, x, hx => by
    by_cases hk : k = h
    · rw [bucketSet, if_pos hk, chainRules_cons] at hx
      rw [chainRules_cons]
      rcases List.mem_append.mp hx with hx | hx
      · right; exact hx
      · left; exact List.mem_append.mpr (Or.inr hx)
    · rw [bucketSet, if_neg hk, chainRules_cons] at hx
      rw [chainRules_cons]
      rcases List.mem_append.mp hx with hx | hx
      · left; exact List.mem_append.mpr (Or.inl hx)
      · rcases mem_chainRules_bucketSet rest h nc x hx with hx | hx
        · left; exact List.mem_append.mpr (Or.inr hx)
        · right; exact hx

lemma mem_swapRemove (l : List R) (i : Nat) (x : R) (hx : x ∈ swapRemove l i) :
    x ∈ l := by
  unfold swapRemove at hx
  rcases hl : l.getLast? with _ | last
  · rw [hl] at hx
    exact hx
  · rw [hl] at hx
    have h1 : x ∈ l.set i last := List.dropLast_subset _ hx
    rcases List.mem_or_eq_of_mem_set h1 with h | rfl
    · exact h
    · exact List.mem_of_getLast?_eq_some hl

lemma lookup_chain_sub :
    ∀ (m : List (Nat × List R)) (h : Nat) (chain : List R),
      m.lookup h = some chain → ∀ x ∈ chain, x ∈ chainRules m
  | [], h, chain, hl => by simp [List.lookup] at hl
  | (k, c) :: rest, h, chain, hl => by
    rw [List.lookup] at hl
    by_cases hk : (h == k) = true
    · rw [hk] at hl
      simp at hl
      intro x hx
      rw [chainRules_cons]
      exact List.mem_append.mpr (Or.inl (by rw [hl]; exact hx))
    · rw [Bool.not_eq_true] at hk
      rw [hk] at hl
      simp at hl
      intro x hx
      rw [chainRules_cons]
      exact List.mem_append.mpr (Or.inr (lookup_chain_sub rest h chain hl x hx))

lemma insert_snd_ranges (t : RVHashMap) (rule : R) :
    ((t.insert rule).2).ranges = t.ranges := by
  by_cases h : rule.priority ∈ t.priorities
  · simp [RVHashMap.insert, h]
  · by_cases hp : rule.priority > t.highest_priority <;>
      simp [RVHashMap.insert, h, hp]

lemma mem_rulesOf_insert (t : RVHashMap) (rule x : R)
    (hx : x ∈ rulesOf ((t.insert rule).2)) : x ∈ rulesOf t ∨ x = rule := by
  by_cases h : rule.priority ∈ t.priorities
  · left
    simpa [RVHashMap.insert, h] using hx
  · have hh : rulesOf ((t.insert rule).2) =
        chainRules (bucketPush t.hash_map (t.calc_hash rule.fields) rule) := by
      by_cases hp : rule.priority > t.highest_priority <;>
        simp [RVHashMap.insert, h, hp, rulesOf, RVHashMap.calc_hash]
    rw [hh] at hx
    exact mem_chainRules_bucketPush t.hash_map (t.calc_hash rule.fields) rule x hx

lemma remove_some_sub (t t' : RVHashMap) (rule : R) (b : Bool)
    (h : t.remove rule = some (b, t')) :
    t'.ranges = t.ranges ∧ ∀ x ∈ rulesOf t', x ∈ rulesOf t := by
  by_cases hm : rule.priority ∈ t.priorities
  · unfold RVHashMap.remove at h
    rw [if_neg (by simpa using hm)] at h
    rcases hl : t.hash_map.lookup (t.calc_hash rule.fields) with _ | chain <;>
      simp [hl] at h
    rcases hi : chain.findIdx? (fun r2 => r2.priority == rule.priority) with _ | i <;>
      simp [hi] at h
    rw [← h.2]
    refine ⟨rfl, ?_⟩
    intro x hx
    rcases mem_chainRules_bucketSet t.hash_map (t.calc_hash rule.fields)
      (swapRemove chain i) x hx with hx | hx
    · exact hx
    · exact lookup_chain_sub t.hash_map (t.calc_hash rule.fields) chain hl x
        (mem_swapRemove chain i x hx)
  · unfold RVHashMap.remove at h
    rw [if_pos hm] at h
    have hp := Option.some_inj.mp h
    have ht : t = t' := congrArg Prod.snd hp
    rw [← ht]
    exact ⟨rfl, fun x hx => hx⟩

lemma addRuleAux_tables (rule : R) :
    ∀ (l : List RVHashMap) (t' : RVHashMap), t' ∈ (addRuleAux rule l).2 →
      t' ∈ l ∨ ∃ t ∈ l, t.can_insert rule = true ∧ t' = (t.insert rule).2
  | [], t', h => by simp [addRuleAux] at h
  | t :: rest, t', h => by
    by_cases hc : t.can_insert rule
    · rcases hi : t.insert rule with ⟨b, u⟩
      have hmem : t' ∈ u :: rest := by
        cases b <;> simpa [addRuleAux, hc, hi] using h
      rcases List.mem_cons.mp hmem with rfl | hmem
      · right
        exact ⟨t, List.mem_cons_self t rest, hc, by rw [hi]⟩
      · left
        exact List.mem_cons_of_mem t hmem
    · rcases haux : addRuleAux rule rest with ⟨ok, rest'⟩
      have hmem : t' ∈ t :: rest' := by simpa [addRuleAux, hc, haux] using h
      rcases List.mem_cons.mp hmem with rfl | hmem
      · left
        exact List.mem_cons_self t' rest
      · rcases addRuleAux_tables rule rest t' (by rw [haux]; exact hmem) with
          h1 | ⟨u, hu, hcu, he⟩
        · left
          exact List.mem_cons_of_mem t h1
        · right
          exact ⟨u, List.mem_cons_of_mem t hu, hcu, he⟩

lemma removeRuleAux_tables (rule : R) :
    ∀ (l hms : List RVHashMap) (b : Bool), removeRuleAux rule l = some (b, hms) →
      ∀ t' ∈ hms, t' ∈ l ∨ ∃ t ∈ l, ∃ bb, t.remove rule = some (bb, t')
  | [], hms, b, h, t', ht' => by
    simp [removeRuleAux] at h
    rw [h.2] at ht'
    simp at ht'
  | t :: rest, hms, b, h, t', ht' => by
    rcases hr : t.remove rule with _ | ⟨bb, u⟩
    · simp [removeRuleAux, hr] at h
    · cases bb
      · rcases haux : removeRuleAux rule rest with _ | ⟨ok, rest'⟩
        · simp [removeRuleAux, hr, haux] at h
        · simp [removeRuleAux, hr, haux] at h
          rw [← h.2] at ht'
          rcases List.mem_cons.mp ht' with rfl | hmem
          · right
            exact ⟨t, List.mem_cons_self t rest, false, hr⟩
          · rcases removeRuleAux_tables rule rest rest' ok haux t' hmem with
              h1 | ⟨v, hv, vb, hrem⟩
            · left
              exact List.mem_cons_of_mem t h1
            · right
              exact ⟨v, List.mem_cons_of_mem t hv, vb, hrem⟩
      · simp [removeRuleAux, hr] at h
        rw [← h.2] at ht'
        rcases List.mem_cons.mp ht' with rfl | hmem
        · right
          exact ⟨t, List.mem_cons_self t rest, true, hr⟩
        · left
          exact List.mem_cons_of_mem t hmem

/-- C9: in every classifier state reachable under the dimensionality
contract, every rule held in any RVHT's buckets has, for each dimension,
a mask popcount inside that RVHT's half-open range. -/
theorem region_assignment_of_reachable (D : Nat) (c : RVHClassifier)
    (h : ReachD D c) : ∀ t ∈ c.hash_maps, tableRegionOk t := by
  suffices hs : ∀ t ∈ c.hash_maps, t.ranges.length = D ∧ tableRegionOk t by
    intro t ht
    exact (hs t ht).2
  induction h with
  | init rvs hrv =>
    intro t ht
    rcases List.mem_map.mp ht with ⟨rv, hrm, rfl⟩
    refine ⟨hrv rv hrm, ?_⟩
    intro x hx
    simp [rulesOf, RVHashMap.new, chainRules] at hx
  | addR c rule hr hdim ih =>
    intro t' ht'
    rcases haux : addRuleAux rule c.hash_maps with ⟨ok, hms⟩
    have hmem : t' ∈ (addRuleAux rule c.hash_maps).2 := by
      rw [haux]
      cases ok
      · simpa [RVHClassifier.add_rule, haux] using ht'
      · have := by simpa [RVHClassifier.add_rule, haux] using ht'
        exact (sortHashMaps_mem hms t').mp this
    rcases addRuleAux_tables rule c.hash_maps t' hmem with hold | ⟨t, htm, hc, rfl⟩
    · exact ih t' hold
    · obtain ⟨hlen, hok⟩ := ih t htm
      refine ⟨by rw [insert_snd_ranges, hlen], ?_⟩
      intro x hx
      rw [insert_snd_ranges]
      rcases mem_rulesOf_insert t rule x hx with hxt | rfl
      · exact hok x hxt
      · refine ⟨by rw [hlen]; exact hdim, ?_⟩
        exact (canInsert_iff t x (by rw [hlen]; exact hdim)).mp hc
  | removeR c c' rule b hr he ih =>
    intro t' ht'
    unfold RVHClassifier.remove_rule at he
    rcases haux : removeRuleAux rule c.hash_maps with _ | ⟨ok, hms⟩
    · rw [haux] at he
      simp at he
    · rw [haux] at he
      have hmem : t' ∈ hms := by
        cases ok <;> simp at he
        · rw [← he.2] at ht'
          exact ht'
        · rw [← he.2] at ht'
          exact (sortHashMaps_mem hms t').mp ht'
      rcases removeRuleAux_tables rule c.hash_maps hms ok haux t' hmem with
        hold | ⟨t, htm, bb, hrem⟩
      · exact ih t' hold
      · obtain ⟨hlen, hok⟩ := ih t htm
        obtain ⟨hrg, hsub⟩ := remove_some_sub t t' rule bb hrem
        refine ⟨by rw [hrg, hlen], ?_⟩
        intro x hx
        rw [hrg]
        exact hok x (hsub x hx)

theorem region_assignment_of_reachable_witness :
    tableRegionOk
      ((((RVHClassifier.new [[(0, 3)]]).add_rule ⟨[9], [1], 4⟩).2).hash_maps.getD 0
        (RVHashMap.new [])) :=
  region_assignment_of_reachable 1
    ((RVHClassifier.new [[(0, 3)]]).add_rule ⟨[9], [1], 4⟩).2
    (ReachD.addR (RVHClassifier.new [[(0, 3)]]) ⟨[9], [1], 4⟩
      (ReachD.init [[(0, 3)]] (by decide)) (by decide))
    ((((RVHClassifier.new [[(0, 3)]]).add_rule ⟨[9], [1], 4⟩).2).hash_maps.getD 0
      (RVHashMap.new []))
    (by decide)

end RVH
